import Mathlib

/-!
Verification development for the YouTube transcript summarization pipeline
(source file utube.py). Strings are modelled as lists of characters; the
fallible generation backend is modelled as a function returning an optional
result (none models a raised exception caught by generate_content).
-/

/-- Python str.strip removes these ASCII whitespace characters at the edges;
the same set is matched by a whitespace class in the bullet-normalization
pattern of format_response. -/
def isPySpace (c : Char) : Bool :=
  c = ' ' || c = '\t' || c = '\n' || c = '\r' || c = '\x0b' || c = '\x0c'

/-- Sentence-ending punctuation of the split pattern in chunk_text_smarter:
a dot, an exclamation mark or a question mark. -/
def isSentEnd (c : Char) : Bool :=
  c = '.' || c = '!' || c = '?'

/-- True when the buffer of already consumed characters (kept reversed) ends
with sentence punctuation, i.e. the character before the current position in
the original text is a dot, exclamation or question mark. -/
def headPunct (acc : List Char) : Bool :=
  match acc with
  | p :: _ => isSentEnd p
  | [] => false

/-- Scanner for the sentence split of chunk_text_smarter, which splits the
text at every run of one or more spaces preceded by sentence punctuation
(the lookbehind pattern), dropping the spaces. The argument acc holds the
current sentence reversed; skipping is true while consuming the remainder of
a separating space run. -/
def splitAux : List Char → List Char → Bool → List (List Char)
  | [], acc, _ => [acc.reverse]
  | c :: cs, acc, skipping =>
    if skipping && c = ' ' then
      splitAux cs acc true
    else if c = ' ' && headPunct acc then
      acc.reverse :: splitAux cs [] true
    else
      splitAux cs (c :: acc) false

/-- The sentence list produced inside chunk_text_smarter. On the empty text
this is a single empty sentence, exactly as the split of the empty string. -/
def splitSentences (text : List Char) : List (List Char) :=
  splitAux text [] false

/-- Python str.strip with no argument: drop whitespace from both ends. -/
def pyStrip (s : List Char) : List Char :=
  ((s.dropWhile isPySpace).reverse.dropWhile isPySpace).reverse

/-- The accumulation loop of chunk_text_smarter: for each sentence, if the
current buffer length plus the sentence length fits the bound, append a
space and the sentence to the buffer (the joining space is not counted by
the check); otherwise flush the stripped buffer as a chunk and restart the
buffer from the sentence alone. A non-empty trailing buffer is flushed. -/
def chunkLoop (maxLength : Nat) : List (List Char) → List Char → List (List Char)
  | [], current => if current ≠ [] then [pyStrip current] else []
  | s :: rest, current =>
    if current.length + s.length ≤ maxLength then
      chunkLoop maxLength rest (current ++ ' ' :: s)
    else
      pyStrip current :: chunkLoop maxLength rest s

/-- chunk_text_smarter from the source: split into sentences, then greedily
pack sentences into chunks bounded by maxLength. -/
def chunk_text_smarter (text : List Char) (maxLength : Nat) : List (List Char) :=
  chunkLoop maxLength (splitSentences text) []

/-- Join a list of pieces with single spaces between consecutive pieces. -/
def joinSp : List (List Char) → List Char
  | [] => []
  | [s] => s
  | s :: rest => s ++ ' ' :: joinSp rest

/-- The tail of a single-space join: empty for no pieces, otherwise a space
followed by the join of the pieces. -/
def tailJoin : List (List Char) → List Char
  | [] => []
  | s :: rest => ' ' :: joinSp (s :: rest)

/-- A sentence is clean when it is non-empty and neither starts nor ends
with whitespace, so stripping leaves it unchanged. -/
def cleanSent (s : List Char) : Bool :=
  !s.isEmpty && !isPySpace (s.headD ' ') && !isPySpace (s.reverse.headD ' ')

/-- Interleave separator strings with chunks: seps are placed before, between
and after the chunks, modelling a re-insertion of removed whitespace. -/
def reassemble : List (List Char) → List (List Char) → List Char
  | s :: seps, c :: chunks => s ++ c ++ reassemble seps chunks
  | seps, [] => seps.flatten
  | [], chunks => chunks.flatten


/-- First pass of format_response: every maximal run of three or more
newlines is collapsed to exactly two newlines (runs of one or two are kept).
The counter n is the number of newlines of the current run already seen; a
newline of the run is emitted only while fewer than two have been seen. -/
def cnAux : Nat → List Char → List Char
  | _, [] => []
  | n, c :: cs =>
    if c = '\n' then
      (if n < 2 then ['\n'] else []) ++ cnAux (n + 1) cs
    else
      c :: cnAux 0 cs

/-- The newline-collapsing substitution of format_response. -/
def collapseNewlines (s : List Char) : List Char := cnAux 0 s

/-- A dash or the bullet character, the marker class of the second
substitution of format_response. -/
def isBullet (c : Char) : Bool :=
  c = '-' || c = '•'

/-- Scanner state for the bullet-normalizing substitution of
format_response, whose pattern matches, at every line start, optional
whitespace, then a dash or bullet, then optional whitespace, replacing the
whole match by a dash and a space. lineStart buffers the whitespace read so
far at a line start (reversed); afterBullet consumes the whitespace after a
matched marker, remembering whether the last consumed character was a
newline (the resumption point is then again a line start); midLine copies
until the next newline. -/
inductive NbState where
  | lineStart (ws : List Char)
  | afterBullet (sawNL : Bool)
  | midLine

/-- The bullet-normalizing substitution of format_response as a character
scanner over the states of NbState. -/
def nbGo : NbState → List Char → List Char
  | .lineStart ws, [] => ws.reverse
  | .afterBullet _, [] => []
  | .midLine, [] => []
  | .lineStart ws, c :: cs =>
    if isPySpace c then nbGo (.lineStart (c :: ws)) cs
    else if isBullet c then '-' :: ' ' :: nbGo (.afterBullet false) cs
    else ws.reverse ++ c :: nbGo .midLine cs
  | .afterBullet sawNL, c :: cs =>
    if isPySpace c then nbGo (.afterBullet (c = '\n')) cs
    else if sawNL && isBullet c then '-' :: ' ' :: nbGo (.afterBullet false) cs
    else c :: nbGo .midLine cs
  | .midLine, c :: cs =>
    if c = '\n' then '\n' :: nbGo (.lineStart []) cs
    else c :: nbGo .midLine cs

/-- The bullet-normalizing substitution, started at the beginning of the
text, which is a line start with no whitespace buffered. -/
def normBullets (s : List Char) : List Char := nbGo (.lineStart []) s

/-- format_response from the source: collapse long newline runs, then
normalize bullet markers at line starts. -/
def format_response (s : List Char) : List Char :=
  normBullets (collapseNewlines s)

/-- A blank-line separator: two newline characters. -/
def nlnl : List Char := ['\n', '\n']

/-- The per-chunk analysis prompt of the source. -/
def CHUNK_PROMPT : List Char :=
  ("Analyze this portion of the video transcript and provide:\n1. Key points discussed in this section\n2. Notable quotes with timestamps\n3. Technical data or statistics\n4. Important concepts and definitions\n5. Brief summary\n\nTranscript section: ").toList

/-- The final synthesis prompt of the source. -/
def FINAL_PROMPT : List Char :=
  ("Based on the analysis of all sections, provide a comprehensive summary with:\n1. Main Topic/Title\n2. Executive Summary (200 words)\n3. Key Points (10-20)\n4. Detailed Analysis (2000 words)\n5. Notable Quotes and Key Statements\n6. Technical Data & Statistics\n7. Key Terms & Definitions\n8. Concepts & Frameworks\n9. Timeline & Structure\n10. Practical Applications\n\nPlease synthesize this complete summary: ").toList

/-- The fast-summary prompt of the source. -/
def FAST_SUMMARY_PROMPT : List Char :=
  ("Provide a concise executive summary of the video transcript (200-500 words). Skip detailed quotes or technical terms.").toList

/-- generate_content from the source: issue one backend call on the prompt
followed by a blank line and the text, and clean the response with
format_response. A backend failure (a raised exception) is modelled by the
backend returning none; the except branch of the source returns None, so
the function never propagates an exception. -/
def generate_content (backend : List Char → Option (List Char))
    (text prompt : List Char) : Option (List Char) :=
  (backend (prompt ++ nlnl ++ text)).map format_response

/-- Keep an optional generation result only when it is truthy in the sense
of the source loop, which drops both None results and empty strings. -/
def truthy : Option (List Char) → Option (List Char)
  | none => none
  | some r => if r = [] then none else some r

/-- The collection loop of analyze_transcript_parallel: results holds the
generate_content outcome of each chunk by chunk index, order is the
sequence of chunk indices in completion order as yielded by as_completed,
and acc accumulates the analyses that pass the truthiness test of the
source loop, in the order the loop sees them. -/
def mapLoop (results : List (Option (List Char))) : List Nat → List (List Char) → List (List Char)
  | [], acc => acc
  | i :: rest, acc =>
    match truthy (results.getD i none) with
    | some r => mapLoop results rest (acc ++ [r])
    | none => mapLoop results rest acc

/-- The per-chunk generate_content outcomes of the map stage, indexed by
chunk position. -/
def chunkResults (backend : List Char → Option (List Char))
    (chunks : List (List Char)) : List (Option (List Char)) :=
  chunks.map (fun c => generate_content backend c CHUNK_PROMPT)

/-- The joined synthesis input handed to the final generate_content call of
analyze_transcript_parallel: the collected chunk analyses joined with blank
lines. -/
def joinedSynthesisInput (backend : List Char → Option (List Char))
    (chunks : List (List Char)) (order : List Nat) : List Char :=
  List.intercalate nlnl (mapLoop (chunkResults backend chunks) order [])

/-- analyze_transcript_parallel from the source, with the scheduling
nondeterminism made explicit as the completion order of the futures: chunk
the transcript with the default bound 3000, collect truthy analyses in
completion order, join them with blank lines and issue the single final
synthesis call. -/
def analyze_transcript_parallel (backend : List Char → Option (List Char))
    (transcript : List Char) (order : List Nat) : Option (List Char) :=
  generate_content backend
    (joinedSynthesisInput backend (chunk_text_smarter transcript 3000) order)
    FINAL_PROMPT

/-- The backend calls issued by the final synthesis step of
analyze_transcript_parallel as a function of the collected analyses: one
unconditional call on the final prompt, a blank line and the joined
analyses, issued even when the list of analyses is empty. -/
def reduceCalls (analyses : List (List Char)) : List (List Char) :=
  [FINAL_PROMPT ++ nlnl ++ List.intercalate nlnl analyses]

/-- One question-answer entry of the session history; the answer is absent
when generate_content returned None. -/
structure QAEntry where
  question : List Char
  answer : Option (List Char)
deriving DecidableEq

/-- The question branch of main: when the question is truthy, the answer
produced by generate_qa_response (possibly None) is appended to the history
together with the question; the append is unconditional on success. -/
def qa_submit (history : List QAEntry) (question : List Char)
    (answer : Option (List Char)) : List QAEntry :=
  if question = [] then history else history ++ [⟨question, answer⟩]

/-- The context of the fast-summary generate_content call of main: the
stored transcript when it is a truthy string, else the empty string, from
the expression that reads the transcript or the empty string. The stored
video title and description are not consulted on this path. -/
def fast_summary_context (current_transcript : Option (List Char)) : List Char :=
  match current_transcript with
  | none => []
  | some t => if t = [] then [] else t

/-- The backend calls issued by the fast-summary branch of main: exactly
one generate_content call on the fast prompt, a blank line and the context;
the segmenter and map stage are not involved. -/
def fast_summary_calls (current_transcript : Option (List Char)) : List (List Char) :=
  [FAST_SUMMARY_PROMPT ++ nlnl ++ fast_summary_context current_transcript]

/-- Decimal digits of a natural number, least significant first, driven by
explicit fuel so the definition is structural. -/
def natDigitsAux : Nat → Nat → List Char
  | 0, _ => []
  | fuel + 1, n =>
    if n < 10 then [Nat.digitChar n] else Nat.digitChar (n % 10) :: natDigitsAux fuel (n / 10)

/-- Decimal rendering of a natural number. -/
def natRepr (n : Nat) : List Char := (natDigitsAux (n + 1) n).reverse

/-- Zero-padded two-digit decimal field, as produced by the 02d format
specification: numbers below ten gain a leading zero, larger numbers are
rendered in full. -/
def pad2 (n : Nat) : List Char :=
  if n < 10 then '0' :: natRepr n else natRepr n

/-- The timestamp prefix built in get_transcript_cached from the integer
part of the start offset of a segment: bracketed hours, minutes and seconds
fields, each through the 02d format, with hours taken as the full quotient
by 3600, never reduced modulo 24. -/
def format_timestamp (t : Nat) : List Char :=
  '[' :: pad2 (t / 3600) ++ ':' :: pad2 (t % 3600 / 60) ++ ':' :: pad2 (t % 60) ++ [']']

/-- Length of the leading newline run of a text. -/
def leadNL : List Char → Nat
  | [] => 0
  | c :: cs => if c = '\n' then leadNL cs + 1 else 0

/-- No three consecutive newlines occur anywhere in the text: at every
position headed by a newline, at most one further newline follows
immediately. Texts satisfying this predicate are exactly the fixed points
of the newline-collapsing substitution. -/
def no3 : List Char → Bool
  | [] => true
  | c :: cs => (if c = '\n' then decide (leadNL cs ≤ 1) else true) && no3 cs


theorem mapLoop_eq_filterMap (results : List (Option (List Char))) (order : List Nat) :
    ∀ acc, mapLoop results order acc =
      acc ++ order.filterMap (fun i => truthy (results.getD i none)) := by
  induction order with
  | nil => intro acc; simp [mapLoop]
  | cons i rest ih =>
    intro acc
    show (match truthy (results.getD i none) with
      | some r => mapLoop results rest (acc ++ [r])
      | none => mapLoop results rest acc) = _
    cases h : truthy (results.getD i none) with
    | none => simp only [List.filterMap_cons, h]; exact ih acc
    | some r =>
      simp only [List.filterMap_cons, h, ih (acc ++ [r])]
      simp

theorem filterMap_drop_none {f : Nat → Option (List Char)} {i : Nat} (hf : f i = none) :
    ∀ l : List Nat, l.filterMap f = (l.filter (fun j => j != i)).filterMap f := by
  intro l
  induction l with
  | nil => rfl
  | cons j rest ih =>
    by_cases hj : j = i
    · subst hj; simp [List.filterMap_cons, hf, ih]
    · simp [List.filterMap_cons, List.filter_cons, hj, ih]

theorem natDigitsAux_len (fuel n : Nat) (hf : 1 ≤ fuel) :
    1 ≤ (natDigitsAux fuel n).length := by
  match fuel with
  | 0 => omega
  | f + 1 =>
    show 1 ≤ (if n < 10 then [Nat.digitChar n]
      else Nat.digitChar (n % 10) :: natDigitsAux f (n / 10)).length
    split <;> simp

theorem two_le_pad2_len (n : Nat) : 2 ≤ (pad2 n).length := by
  unfold pad2
  split
  · have h := natDigitsAux_len (n + 1) n (by omega)
    simp only [natRepr, List.length_cons, List.length_reverse]
    omega
  · rename_i h10
    have h2 : natDigitsAux (n + 1) n =
        Nat.digitChar (n % 10) :: natDigitsAux n (n / 10) := by
      show (if n < 10 then [Nat.digitChar n]
        else Nat.digitChar (n % 10) :: natDigitsAux n (n / 10)) = _
      rw [if_neg h10]
    have h := natDigitsAux_len n (n / 10) (by omega)
    simp only [natRepr, h2, List.length_reverse, List.length_cons]
    omega

/-- Claim C1, counterexample: with two chunks both succeeding and the
second completing first, the sequence of analyses handed to the reduce step
is the completion order, not the chunk index order. -/
theorem c1_counterexample :
    ([1, 0] : List Nat).Perm (List.range 2) ∧
    mapLoop [some ['A'], some ['B']] [1, 0] [] ≠
      mapLoop [some ['A'], some ['B']] (List.range 2) [] ∧
    mapLoop [some ['A'], some ['B']] [1, 0] [] = [['B'], ['A']] := by
  decide

/-- Claim C1, amended: for every sequence of chunks and every completion
order of the per-chunk generation calls, the joined synthesis input handed
to the reduce step lists the truthy chunk analyses in completion order; the
stage performs no reindexing to original chunk index order. -/
theorem c1_amended (backend : List Char → Option (List Char))
    (chunks : List (List Char)) (order : List Nat)
    (_hperm : order.Perm (List.range chunks.length)) :
    joinedSynthesisInput backend chunks order =
      List.intercalate nlnl
        (order.filterMap (fun i => truthy ((chunkResults backend chunks).getD i none))) := by
  unfold joinedSynthesisInput
  rw [mapLoop_eq_filterMap]
  simp

theorem c1_amended_witness :
    ([0] : List Nat).Perm (List.range ([['a']] : List (List Char)).length) ∧
    joinedSynthesisInput (fun _ => none) [['a']] [0] =
      List.intercalate nlnl
        (([0] : List Nat).filterMap
          (fun i => truthy ((chunkResults (fun _ => none) [['a']]).getD i none))) :=
  ⟨by decide, c1_amended (fun _ => none) [['a']] [0] (by decide)⟩

/-- Claim C2, counterexample: invoked with an empty sequence of chunk
analyses, the reduce step still issues one generation-backend call (on the
final prompt followed by an empty joined context); no empty-input failure
exists in the code. -/
theorem c2_counterexample :
    reduceCalls [] = [FINAL_PROMPT ++ nlnl] ∧ reduceCalls [] ≠ [] := by
  have h : List.intercalate nlnl ([] : List (List Char)) = [] := rfl
  constructor
  · simp [reduceCalls, h]
  · simp [reduceCalls]

/-- Claim C2, amended: the reduce step always issues exactly one
generation-backend call, even when no chunk succeeded, in which case the
joined synthesis context appended to the prompt is the empty string. -/
theorem c2_amended : ∀ analyses : List (List Char),
    (reduceCalls analyses).length = 1 ∧ reduceCalls [] = [FINAL_PROMPT ++ nlnl] := by
  intro analyses
  have h : List.intercalate nlnl ([] : List (List Char)) = [] := rfl
  constructor
  · rfl
  · simp [reduceCalls, h]

/-- Claim C3, counterexample: when the generation call for a question fails
(the answer is None), the entry is appended anyway, so the history does not
stay unchanged. -/
theorem c3_counterexample :
    qa_submit [] ['q'] none ≠ [] ∧
    qa_submit [] ['q'] none = [⟨['q'], none⟩] := by
  decide

/-- Claim C3, amended: for every non-empty question, the QA history grows
by exactly one entry appended at the end, regardless of whether the
generation call succeeded (on failure the stored answer is simply absent);
the existing entries are preserved unchanged as a prefix. -/
theorem c3_amended (h : List QAEntry) (q : List Char) (a : Option (List Char))
    (hq : q ≠ []) :
    qa_submit h q a = h ++ [⟨q, a⟩] ∧
    (qa_submit h q a).length = h.length + 1 ∧
    (qa_submit h q a).take h.length = h := by
  have h1 : qa_submit h q a = h ++ [⟨q, a⟩] := by simp [qa_submit, hq]
  refine ⟨h1, ?_, ?_⟩
  · rw [h1]; simp
  · rw [h1]; exact List.take_left h [⟨q, a⟩]

theorem c3_amended_witness :
    (['q'] : List Char) ≠ [] ∧
    (qa_submit [] ['q'] none = [] ++ [⟨['q'], none⟩] ∧
      (qa_submit [] ['q'] none).length = ([] : List QAEntry).length + 1 ∧
      (qa_submit [] ['q'] none).take ([] : List QAEntry).length = []) :=
  ⟨by decide, c3_amended [] ['q'] none (by decide)⟩

/-- Claim C4: a failed chunk generation call (the backend raised, modelled
as a none result that the except branch of generate_content converts to
None) does not abort the batch: the loop is a total function of the
results, the failed chunk contributes nothing to the aggregate (removing
its completion event changes nothing and no error string is substituted),
and every truthy analysis of the other chunks is still collected. -/
theorem c4_map_failure (backend : List Char → Option (List Char))
    (chunks : List (List Char)) (order : List Nat) (i : Nat)
    (hfail : (chunkResults backend chunks).getD i none = none) :
    mapLoop (chunkResults backend chunks) order [] =
      mapLoop (chunkResults backend chunks) (order.filter (fun j => j != i)) [] ∧
    ∀ j r, j ∈ order → (chunkResults backend chunks).getD j none = some r → r ≠ [] →
      r ∈ mapLoop (chunkResults backend chunks) order [] := by
  constructor
  · rw [mapLoop_eq_filterMap, mapLoop_eq_filterMap]
    have hi : truthy ((chunkResults backend chunks).getD i none) = none := by
      rw [hfail]; rfl
    rw [filterMap_drop_none hi order]
  · intro j r hj hjr hr
    rw [mapLoop_eq_filterMap]
    simp only [List.nil_append]
    refine List.mem_filterMap.mpr ⟨j, hj, ?_⟩
    show truthy ((chunkResults backend chunks).getD j none) = some r
    rw [hjr]
    simp [truthy, hr]

theorem c4_map_failure_witness :
    (chunkResults (fun _ => none) [['a']]).getD 0 none = none ∧
    (mapLoop (chunkResults (fun _ => none) [['a']]) [0] [] =
        mapLoop (chunkResults (fun _ => none) [['a']]) (([0] : List Nat).filter (fun j => j != 0)) [] ∧
      ∀ j r, j ∈ ([0] : List Nat) →
        (chunkResults (fun _ => none) [['a']]).getD j none = some r → r ≠ [] →
        r ∈ mapLoop (chunkResults (fun _ => none) [['a']]) [0] []) :=
  ⟨rfl, c4_map_failure (fun _ => none) [['a']] [0] 0 rfl⟩

/-- Claim C7, counterexample: on the empty text the segmenter returns a
one-element sequence holding the empty chunk, not the empty sequence. -/
theorem c7_counterexample :
    chunk_text_smarter [] 3000 ≠ [] ∧ chunk_text_smarter [] 3000 = [[]] := by
  decide

/-- Claim C7, amended: for every bound, the segmenter applied to the empty
text returns exactly one chunk, the empty string (the split of the empty
text is one empty sentence, which the loop buffers behind a joining space
and finally strips to the empty chunk). -/
theorem c7_amended : ∀ L : Nat, chunk_text_smarter [] L = [[]] := by
  intro L
  show chunkLoop L [[]] [] = [[]]
  rw [chunkLoop, if_pos (by simp : ([] : List Char).length + ([] : List Char).length ≤ L)]
  show chunkLoop L [] [' '] = [[]]
  rw [chunkLoop, if_pos (by decide : ([' '] : List Char) ≠ [])]
  decide

/-- Claim C8, counterexample: with an empty stored transcript and a
non-empty candidate fallback text of title and description, the fast
summary call context is the empty string, not the fallback text; the title
and description are never consulted on this path. -/
theorem c8_counterexample :
    fast_summary_context none = [] ∧
    ([] : List Char) ≠ ("Title X\nDescription Y").toList ∧
    fast_summary_calls none = [FAST_SUMMARY_PROMPT ++ nlnl] := by
  refine ⟨rfl, by decide, by simp [fast_summary_calls, fast_summary_context]⟩

/-- Claim C8, amended: the fast-path summarizer issues exactly one
generation call whose context is the full transcript when it is non-empty
and the empty string otherwise (absent or empty transcript); no fallback
text or placeholder directive is substituted, and neither the segmenter nor
the map stage is invoked. -/
theorem c8_amended : ∀ t : Option (List Char),
    (fast_summary_calls t).length = 1 ∧
    fast_summary_context none = [] ∧
    fast_summary_context (some []) = [] ∧
    ∀ c cs, fast_summary_context (some (c :: cs)) = c :: cs := by
  intro t
  refine ⟨rfl, rfl, by simp [fast_summary_context], ?_⟩
  intro c cs
  simp [fast_summary_context]

/-- Claim C9: the timestamp prefix is built from the integer seconds as
bracketed hours, minutes and seconds, each field zero-padded to at least
two digits, with the hours field the full quotient by 3600 so that hours
past twenty-four do not wrap (90000 seconds renders as 25 hours); in
particular 3725 seconds formats as 01:02:05 in brackets. -/
theorem c9_timestamp_format :
    format_timestamp 3725 = ("[01:02:05]").toList ∧
    format_timestamp 90000 = ("[25:00:00]").toList ∧
    ∀ t : Nat,
      format_timestamp t =
        '[' :: pad2 (t / 3600) ++ ':' :: pad2 (t % 3600 / 60) ++ ':' :: pad2 (t % 60) ++ [']'] ∧
      2 ≤ (pad2 (t / 3600)).length ∧
      2 ≤ (pad2 (t % 3600 / 60)).length ∧
      2 ≤ (pad2 (t % 60)).length := by
  refine ⟨by decide, by decide, ?_⟩
  intro t
  exact ⟨rfl, two_le_pad2_len _, two_le_pad2_len _, two_le_pad2_len _⟩

theorem dropWhile_eq_self_of_headD (l : List Char)
    (h : isPySpace (l.headD ' ') = false) : l.dropWhile isPySpace = l := by
  cases l with
  | nil => rfl
  | cons c t => simp only [List.headD_cons] at h; simp [List.dropWhile_cons, h]

theorem cleanSent_spec (s : List Char) (hs : cleanSent s = true) :
    s ≠ [] ∧ isPySpace (s.headD ' ') = false ∧ isPySpace (s.reverse.headD ' ') = false := by
  simp only [cleanSent, Bool.and_eq_true, Bool.not_eq_true'] at hs
  refine ⟨?_, hs.1.2, hs.2⟩
  intro h
  subst h
  simp at hs

theorem pyStrip_clean (s : List Char) (hs : cleanSent s = true) : pyStrip s = s := by
  obtain ⟨_, h1, h2⟩ := cleanSent_spec s hs
  unfold pyStrip
  rw [dropWhile_eq_self_of_headD s h1, dropWhile_eq_self_of_headD s.reverse h2,
    List.reverse_reverse]

theorem pyStrip_sp_clean (v : List Char) (hv : cleanSent v = true) :
    pyStrip (' ' :: v) = v := by
  obtain ⟨_, h1, h2⟩ := cleanSent_spec v hv
  unfold pyStrip
  rw [List.dropWhile_cons]
  simp only [show isPySpace ' ' = true from rfl, if_true]
  rw [dropWhile_eq_self_of_headD v h1, dropWhile_eq_self_of_headD v.reverse h2,
    List.reverse_reverse]

theorem cleanSent_append_sp (v s : List Char) (hv : cleanSent v = true)
    (hs : cleanSent s = true) : cleanSent (v ++ ' ' :: s) = true := by
  obtain ⟨hv0, hv1, _⟩ := cleanSent_spec v hv
  obtain ⟨hs0, _, hs2⟩ := cleanSent_spec s hs
  obtain ⟨c, t, hct⟩ := List.exists_cons_of_ne_nil hv0
  obtain ⟨d, u, hdu⟩ := List.exists_cons_of_ne_nil (by simpa using hs0 : s.reverse ≠ [])
  simp only [cleanSent, Bool.and_eq_true, Bool.not_eq_true']
  refine ⟨⟨by simp [hct], ?_⟩, ?_⟩
  · rw [hct] at hv1 ⊢; simpa using hv1
  · rw [List.reverse_append]
    simp only [List.reverse_cons]
    rw [hdu] at hs2 ⊢
    simpa using hs2

theorem chunkLoop_ne_nil (L : Nat) (ss : List (List Char)) :
    ∀ cur : List Char, cur ≠ [] → chunkLoop L ss cur ≠ [] := by
  induction ss with
  | nil => intro cur hc; simp [chunkLoop, hc]
  | cons s rest ih =>
    intro cur hc
    rw [chunkLoop]
    split
    · exact ih (cur ++ ' ' :: s) (by simp)
    · simp

theorem joinSp_cons_of_ne_nil (s : List Char) (rest : List (List Char))
    (h : rest ≠ []) : joinSp (s :: rest) = s ++ ' ' :: joinSp rest := by
  cases rest with
  | nil => exact absurd rfl h
  | cons a t => rfl

theorem joinSp_eq_head_tail (s : List Char) (ss : List (List Char)) :
    joinSp (s :: ss) = s ++ tailJoin ss := by
  cases ss with
  | nil => simp [joinSp, tailJoin]
  | cons a t => rfl

theorem chunkLoop_join (L : Nat) (ss : List (List Char)) :
    ∀ cur : List Char, cleanSent cur = true → (∀ s ∈ ss, cleanSent s = true) →
      joinSp (chunkLoop L ss cur) = cur ++ tailJoin ss := by
  induction ss with
  | nil =>
    intro cur hcur _
    have hc0 := (cleanSent_spec cur hcur).1
    simp [chunkLoop, hc0, joinSp, pyStrip_clean cur hcur, tailJoin]
  | cons s rest ih =>
    intro cur hcur hss
    have hs : cleanSent s = true := hss s (List.mem_cons_self s rest)
    have hrest : ∀ x ∈ rest, cleanSent x = true :=
      fun x hx => hss x (List.mem_cons_of_mem s hx)
    rw [chunkLoop]
    split
    · rw [ih (cur ++ ' ' :: s) (cleanSent_append_sp cur s hcur hs) hrest,
        tailJoin, joinSp_eq_head_tail]
      simp
    · have hne : chunkLoop L rest s ≠ [] :=
        chunkLoop_ne_nil L rest s (cleanSent_spec s hs).1
      rw [joinSp_cons_of_ne_nil _ _ hne, ih s hs hrest, pyStrip_clean cur hcur,
        tailJoin, joinSp_eq_head_tail]

theorem chunkLoop_join_sp (L : Nat) (ss : List (List Char)) :
    ∀ v : List Char, cleanSent v = true → (∀ s ∈ ss, cleanSent s = true) →
      joinSp (chunkLoop L ss (' ' :: v)) = v ++ tailJoin ss := by
  induction ss with
  | nil =>
    intro v hv _
    simp [chunkLoop, joinSp, pyStrip_sp_clean v hv, tailJoin]
  | cons s rest ih =>
    intro v hv hss
    have hs : cleanSent s = true := hss s (List.mem_cons_self s rest)
    have hrest : ∀ x ∈ rest, cleanSent x = true :=
      fun x hx => hss x (List.mem_cons_of_mem s hx)
    rw [chunkLoop]
    split
    · have hshape : (' ' :: v) ++ ' ' :: s = ' ' :: (v ++ ' ' :: s) := rfl
      rw [hshape, ih (v ++ ' ' :: s) (cleanSent_append_sp v s hv hs) hrest,
        tailJoin, joinSp_eq_head_tail]
      simp
    · have hne : chunkLoop L rest s ≠ [] :=
        chunkLoop_ne_nil L rest s (cleanSent_spec s hs).1
      rw [joinSp_cons_of_ne_nil _ _ hne, chunkLoop_join L rest s hs hrest,
        pyStrip_sp_clean v hv, tailJoin, joinSp_eq_head_tail]

theorem splitAux_ne_nil : ∀ (t acc : List Char) (sk : Bool), splitAux t acc sk ≠ [] := by
  intro t
  induction t with
  | nil => intro acc sk; simp [splitAux]
  | cons c cs ih =>
    intro acc sk
    rw [splitAux]
    split
    · exact ih acc true
    · split
      · simp
      · exact ih (c :: acc) false

/-- Claim C5, counterexample: on the text with two spaces between the
sentences, the segmenter returns the single chunk with the sentences
rejoined by one space, and no re-insertion of whitespace between, before or
after the chunks can reconstruct the original text. -/
theorem c5_counterexample :
    chunk_text_smarter ("a.  b.").toList 3000 = [("a. b.").toList] ∧
    ¬ ∃ seps : List (List Char),
        seps.length = (chunk_text_smarter ("a.  b.").toList 3000).length + 1 ∧
        (∀ w ∈ seps, ∀ c ∈ w, isPySpace c = true) ∧
        reassemble seps (chunk_text_smarter ("a.  b.").toList 3000) =
          ("a.  b.").toList := by
  have hch : chunk_text_smarter ("a.  b.").toList 3000 = [("a. b.").toList] := by decide
  refine ⟨hch, ?_⟩
  rintro ⟨seps, hlen, _, heq⟩
  rw [hch] at hlen heq
  simp only [List.length_cons, List.length_nil] at hlen
  obtain ⟨w0, seps1, h1⟩ := List.exists_cons_of_ne_nil
    (by intro h; rw [h] at hlen; simp at hlen : seps ≠ [])
  subst h1
  obtain ⟨w1, seps2, h2⟩ := List.exists_cons_of_ne_nil
    (by intro h; rw [h] at hlen; simp at hlen : seps1 ≠ [])
  subst h2
  have h3 : seps2 = [] := by
    cases seps2 with
    | nil => rfl
    | cons a t => simp at hlen
  subst h3
  have hre : reassemble [w0, w1] [("a. b.").toList] =
      w0 ++ ("a. b.").toList ++ (w1 ++ []) := rfl
  rw [hre] at heq
  have hlens := congrArg List.length heq
  simp only [List.length_append, List.append_nil] at hlens
  have hT : (("a.  b.").toList).length = 6 := by decide
  have hm : (("a. b.").toList).length = 5 := by decide
  rw [hT, hm] at hlens
  have hw : w0.length + w1.length = 1 := by omega
  have hm' : ("a. b.").toList = ['a', '.', ' ', 'b', '.'] := rfl
  have hT' : ("a.  b.").toList = ['a', '.', ' ', ' ', 'b', '.'] := rfl
  rw [hm', hT'] at heq
  cases w0 with
  | nil =>
    cases w1 with
    | nil => simp at hw
    | cons c t =>
      have ht : t = [] := by
        simp only [List.length_nil, List.length_cons] at hw
        exact List.length_eq_zero.mp (by omega)
      subst ht
      simp at heq
  | cons c t =>
    simp only [List.length_cons] at hw
    have ht : t = [] := List.length_eq_zero.mp (by omega)
    have hw1 : w1 = [] := List.length_eq_zero.mp (by omega)
    subst ht
    subst hw1
    simp at heq

/-- Claim C5, amended: when every sentence of the split is clean (non-empty
with no whitespace at either edge), the whitespace removed at every split
point is a single space (equivalently, rejoining the sentences with single
spaces gives back the text), and the first sentence fits the bound, then
concatenating the chunks in order with single-space separators reconstructs
the text exactly; with multi-space separators this fails, since the
segmenter rejoins sentences with one space and strips chunk edges. -/
theorem c5_amended (T : List Char) (L : Nat)
    (hclean : ∀ s ∈ splitSentences T, cleanSent s = true)
    (hfit : ((splitSentences T).headD []).length ≤ L)
    (hjoin : joinSp (splitSentences T) = T) :
    joinSp (chunk_text_smarter T L) = T := by
  obtain ⟨s1, ss, hsp⟩ := List.exists_cons_of_ne_nil (splitAux_ne_nil T [] false)
  have hs1 : cleanSent s1 = true := hclean s1 (by rw [show splitSentences T = s1 :: ss from hsp]; exact List.mem_cons_self s1 ss)
  have hss : ∀ s ∈ ss, cleanSent s = true :=
    fun s hx => hclean s (by rw [show splitSentences T = s1 :: ss from hsp]; exact List.mem_cons_of_mem s1 hx)
  have hfit1 : s1.length ≤ L := by
    rw [show splitSentences T = s1 :: ss from hsp] at hfit
    simpa using hfit
  unfold chunk_text_smarter
  rw [show splitSentences T = s1 :: ss from hsp] at hjoin ⊢
  rw [chunkLoop, if_pos (by simpa using hfit1 : ([] : List Char).length + s1.length ≤ L)]
  have hshape : ([] : List Char) ++ ' ' :: s1 = ' ' :: s1 := rfl
  rw [hshape, chunkLoop_join_sp L ss s1 hs1 hss, ← joinSp_eq_head_tail, hjoin]

theorem c5_amended_witness :
    ((∀ s ∈ splitSentences ("a. b.").toList, cleanSent s = true) ∧
      ((splitSentences ("a. b.").toList).headD []).length ≤ 3000 ∧
      joinSp (splitSentences ("a. b.").toList) = ("a. b.").toList) ∧
    joinSp (chunk_text_smarter ("a. b.").toList 3000) = ("a. b.").toList :=
  ⟨⟨by decide, by decide, by decide⟩,
    c5_amended ("a. b.").toList 3000 (by decide) (by decide) (by decide)⟩

theorem pyStrip_length_le (s : List Char) : (pyStrip s).length ≤ s.length := by
  unfold pyStrip
  calc ((s.dropWhile isPySpace).reverse.dropWhile isPySpace).reverse.length
      = ((s.dropWhile isPySpace).reverse.dropWhile isPySpace).length := by
        rw [List.length_reverse]
    _ ≤ (s.dropWhile isPySpace).reverse.length :=
        (List.dropWhile_sublist _).length_le
    _ = (s.dropWhile isPySpace).length := by rw [List.length_reverse]
    _ ≤ s.length := (List.dropWhile_sublist _).length_le

theorem chunkLoop_bound (L : Nat) (allS : List (List Char)) :
    ∀ (ss : List (List Char)) (cur : List Char),
      (∀ s ∈ ss, s ∈ allS) → (cur.length ≤ L + 1 ∨ cur ∈ allS) →
      ∀ c ∈ chunkLoop L ss cur,
        c.length ≤ L + 1 ∨ ∃ s ∈ allS, c = pyStrip s ∧ L < s.length := by
  intro ss
  induction ss with
  | nil =>
    intro cur _ hcur c hc
    rw [chunkLoop] at hc
    split at hc
    · rw [List.mem_singleton] at hc
      subst hc
      by_cases hl : cur.length ≤ L + 1
      · exact Or.inl (le_trans (pyStrip_length_le cur) hl)
      · rcases hcur with h | h
        · exact absurd h hl
        · exact Or.inr ⟨cur, h, rfl, by omega⟩
    · simp at hc
  | cons s rest ih =>
    intro cur hss hcur c hc
    have hsA : s ∈ allS := hss s (List.mem_cons_self s rest)
    have hrest : ∀ x ∈ rest, x ∈ allS := fun x hx => hss x (List.mem_cons_of_mem s hx)
    rw [chunkLoop] at hc
    split at hc
    · rename_i hle
      refine ih (cur ++ ' ' :: s) hrest (Or.inl ?_) c hc
      simp only [List.length_append, List.length_cons]
      omega
    · rcases List.mem_cons.mp hc with hc1 | hc2
      · subst hc1
        by_cases hl : cur.length ≤ L + 1
        · exact Or.inl (le_trans (pyStrip_length_le cur) hl)
        · rcases hcur with h | h
          · exact absurd h hl
          · exact Or.inr ⟨cur, h, rfl, by omega⟩
      · exact ih s hrest (Or.inr hsA) c hc2

/-- Claim C6, counterexample: with bound 4, the text of three short
sentences yields a chunk of five characters holding two sentences, which
both exceeds the bound and is not a single oversized sentence, because the
length check ignores the joining space the loop inserts. -/
theorem c6_counterexample :
    ¬ ∀ c ∈ chunk_text_smarter ("a. b. c.").toList 4,
        c.length ≤ 4 ∨
        ∃ s ∈ splitSentences ("a. b. c.").toList, c = pyStrip s ∧ 4 < s.length := by
  decide

/-- Claim C6, amended: every chunk produced by the segmenter has length at
most the bound plus one (the greedy check ignores the single joining space
it inserts), except when the chunk is the stripped form of a single
sentence whose own length exceeds the bound, which is kept unsplit. -/
theorem c6_amended (T : List Char) (L : Nat) (c : List Char)
    (hc : c ∈ chunk_text_smarter T L) :
    c.length ≤ L + 1 ∨ ∃ s ∈ splitSentences T, c = pyStrip s ∧ L < s.length :=
  chunkLoop_bound L (splitSentences T) (splitSentences T) []
    (fun _ hs => hs) (Or.inl (by simp)) c hc

theorem c6_amended_witness :
    ("b. c.").toList ∈ chunk_text_smarter ("a. b. c.").toList 4 ∧
    ((("b. c.").toList).length ≤ 4 + 1 ∨
      ∃ s ∈ splitSentences ("a. b. c.").toList,
        ("b. c.").toList = pyStrip s ∧ 4 < s.length) :=
  ⟨by decide, c6_amended ("a. b. c.").toList 4 ("b. c.").toList (by decide)⟩

theorem bullet_not_ws (c : Char) (hb : isBullet c = true) : isPySpace c = false := by
  have h : c = '-' ∨ c = '•' := by simpa [isBullet] using hb
  rcases h with h | h <;> subst h <;> rfl

theorem not_nl_of_not_ws (c : Char) (h : isPySpace c = false) : ¬ c = '\n' := by
  intro hc
  subst hc
  simp [isPySpace] at h

theorem nbA_ws (ws cs : List Char) (c : Char) (h : isPySpace c = true) :
    nbGo (.lineStart ws) (c :: cs) = nbGo (.lineStart (c :: ws)) cs := by
  simp [nbGo, h]

theorem nbA_bullet (ws cs : List Char) (c : Char) (h : isBullet c = true) :
    nbGo (.lineStart ws) (c :: cs) = '-' :: ' ' :: nbGo (.afterBullet false) cs := by
  simp [nbGo, bullet_not_ws c h, h]

theorem nbA_other (ws cs : List Char) (c : Char) (h : isPySpace c = false)
    (hb : isBullet c = false) :
    nbGo (.lineStart ws) (c :: cs) = ws.reverse ++ c :: nbGo .midLine cs := by
  simp [nbGo, h, hb]

theorem nbB_ws (cs : List Char) (b : Bool) (c : Char) (h : isPySpace c = true) :
    nbGo (.afterBullet b) (c :: cs) = nbGo (.afterBullet (c = '\n')) cs := by
  simp [nbGo, h]

theorem nbB_bullet (cs : List Char) (c : Char) (h : isBullet c = true) :
    nbGo (.afterBullet true) (c :: cs) = '-' :: ' ' :: nbGo (.afterBullet false) cs := by
  simp [nbGo, bullet_not_ws c h, h]

theorem nbB_other (cs : List Char) (b : Bool) (c : Char) (h : isPySpace c = false)
    (hcond : (b && isBullet c) = false) :
    nbGo (.afterBullet b) (c :: cs) = c :: nbGo .midLine cs := by
  simp [nbGo, h, hcond]

theorem nbC_nl (cs : List Char) :
    nbGo .midLine ('\n' :: cs) = '\n' :: nbGo (.lineStart []) cs := by
  simp [nbGo]

theorem nbC_other (cs : List Char) (c : Char) (h : ¬ c = '\n') :
    nbGo .midLine (c :: cs) = c :: nbGo .midLine cs := by
  simp [nbGo, h]

theorem nbGo_lineStart_allWs (u : List Char) :
    ∀ v : List Char, (∀ c ∈ u, isPySpace c = true) →
      nbGo (.lineStart v) u = v.reverse ++ u := by
  induction u with
  | nil => intro v _; simp [nbGo]
  | cons c cs ih =>
    intro v hu
    rw [nbA_ws v cs c (hu c (List.mem_cons_self c cs)),
      ih (c :: v) (fun x hx => hu x (List.mem_cons_of_mem c hx))]
    simp

theorem nbGo_lineStart_append (u : List Char) :
    ∀ (v rest : List Char), (∀ c ∈ u, isPySpace c = true) →
      nbGo (.lineStart v) (u ++ rest) = nbGo (.lineStart (u.reverse ++ v)) rest := by
  induction u with
  | nil => intro v rest _; simp
  | cons c cs ih =>
    intro v rest hu
    rw [List.cons_append, nbA_ws v (cs ++ rest) c (hu c (List.mem_cons_self c cs)),
      ih (c :: v) rest (fun x hx => hu x (List.mem_cons_of_mem c hx))]
    simp

theorem nbGo_idem : ∀ s : List Char,
    (∀ ws : List Char, (∀ c ∈ ws, isPySpace c = true) →
      nbGo (.lineStart []) (nbGo (.lineStart ws) s) = nbGo (.lineStart ws) s) ∧
    (∀ b : Bool,
      nbGo (.afterBullet false) (nbGo (.afterBullet b) s) = nbGo (.afterBullet b) s) ∧
    (nbGo .midLine (nbGo .midLine s) = nbGo .midLine s) ∧
    (∀ b : Bool, nbGo .midLine (nbGo (.afterBullet b) s) = nbGo (.afterBullet b) s) := by
  intro s
  induction s with
  | nil =>
    refine ⟨?_, ?_, ?_, ?_⟩
    · intro ws hws
      show nbGo (.lineStart []) ws.reverse = ws.reverse
      rw [nbGo_lineStart_allWs ws.reverse []
        (fun c hc => hws c (List.mem_reverse.mp hc))]
      simp
    · intro b; rfl
    · rfl
    · intro b; rfl
  | cons c cs ih =>
    obtain ⟨ih1, ih2, ih3, ih4⟩ := ih
    have hmid : nbGo .midLine (nbGo .midLine (c :: cs)) = nbGo .midLine (c :: cs) := by
      by_cases hnl : c = '\n'
      · subst hnl
        rw [nbC_nl cs, nbC_nl (nbGo (.lineStart []) cs)]
        rw [ih1 [] (by intro x hx; simp at hx)]
      · rw [nbC_other cs c hnl, nbC_other _ c hnl, ih3]
    by_cases hw : isPySpace c = true
    · refine ⟨?_, ?_, hmid, ?_⟩
      · intro ws hws
        rw [nbA_ws ws cs c hw]
        refine ih1 (c :: ws) ?_
        intro x hx
        rcases List.mem_cons.mp hx with h | h
        · subst h; exact hw
        · exact hws x h
      · intro b
        rw [nbB_ws cs b c hw]
        exact ih2 _
      · intro b
        rw [nbB_ws cs b c hw]
        exact ih4 _
    · have hw' : isPySpace c = false := by simpa using hw
      have hnl : ¬ c = '\n' := not_nl_of_not_ws c hw'
      by_cases hb : isBullet c = true
      · refine ⟨?_, ?_, hmid, ?_⟩
        · intro ws hws
          rw [nbA_bullet ws cs c hb]
          rw [nbA_bullet [] (' ' :: nbGo (.afterBullet false) cs) '-' (by decide)]
          rw [nbB_ws (nbGo (.afterBullet false) cs) false ' ' (by decide)]
          simp only [show (decide ((' ' : Char) = '\n')) = false by decide]
          rw [ih2 false]
        · intro b
          cases b with
          | true =>
            rw [nbB_bullet cs c hb]
            rw [nbB_other (' ' :: nbGo (.afterBullet false) cs) false '-'
              (by decide) (by decide)]
            rw [nbC_other (nbGo (.afterBullet false) cs) ' ' (by decide)]
            rw [ih4 false]
          | false =>
            rw [nbB_other cs false c hw' (by simp)]
            rw [nbB_other (nbGo .midLine cs) false c hw' (by simp)]
            rw [ih3]
        · intro b
          cases b with
          | true =>
            rw [nbB_bullet cs c hb]
            rw [nbC_other (' ' :: nbGo (.afterBullet false) cs) '-' (by decide)]
            rw [nbC_other (nbGo (.afterBullet false) cs) ' ' (by decide)]
            rw [ih4 false]
          | false =>
            rw [nbB_other cs false c hw' (by simp)]
            rw [nbC_other (nbGo .midLine cs) c hnl]
            rw [ih3]
      · have hb' : isBullet c = false := by simpa using hb
        refine ⟨?_, ?_, hmid, ?_⟩
        · intro ws hws
          rw [nbA_other ws cs c hw' hb']
          rw [nbGo_lineStart_append ws.reverse [] (c :: nbGo .midLine cs)
            (fun x hx => hws x (List.mem_reverse.mp hx))]
          rw [List.reverse_reverse, List.append_nil]
          rw [nbA_other ws (nbGo .midLine cs) c hw' hb']
          rw [ih3]
        · intro b
          rw [nbB_other cs b c hw' (by simp [hb'])]
          rw [nbB_other (nbGo .midLine cs) false c hw' (by simp)]
          rw [ih3]
        · intro b
          rw [nbB_other cs b c hw' (by simp [hb'])]
          rw [nbC_other (nbGo .midLine cs) c hnl]
          rw [ih3]

theorem leadNL_append_cons (c : Char) (hnl : ¬ c = '\n') :
    ∀ u v : List Char, leadNL (u ++ c :: v) = leadNL u := by
  intro u
  induction u with
  | nil => intro v; simp [leadNL, hnl]
  | cons d u' ih =>
    intro v
    by_cases hd : d = '\n'
    · subst hd; simp [leadNL, ih v]
    · simp [leadNL, hd]

theorem no3_tail {c : Char} {cs : List Char} (h : no3 (c :: cs) = true) :
    no3 cs = true := by
  simp only [no3, Bool.and_eq_true] at h
  exact h.2

theorem leadNL_nl (cs : List Char) : leadNL ('\n' :: cs) = leadNL cs + 1 := by
  simp [leadNL]

theorem leadNL_not_nl (c : Char) (cs : List Char) (h : ¬ c = '\n') :
    leadNL (c :: cs) = 0 := by
  simp [leadNL, h]

theorem no3_nl (cs : List Char) :
    no3 ('\n' :: cs) = (decide (leadNL cs ≤ 1) && no3 cs) := by
  simp [no3]

theorem no3_not_nl (c : Char) (cs : List Char) (h : ¬ c = '\n') :
    no3 (c :: cs) = no3 cs := by
  simp [no3, h]

theorem no3_append_right : ∀ u v : List Char, no3 (u ++ v) = true → no3 v = true := by
  intro u
  induction u with
  | nil => intro v h; exact h
  | cons d u' ih => intro v h; exact ih v (no3_tail h)

theorem no3_append_cons (c : Char) (hnl : ¬ c = '\n') :
    ∀ u v : List Char, no3 (u ++ c :: v) = (no3 u && no3 v) := by
  intro u
  induction u with
  | nil => intro v; simp [no3, hnl]
  | cons d u' ih =>
    intro v
    rw [List.cons_append]
    simp only [no3]
    rw [ih v, leadNL_append_cons c hnl u' v, Bool.and_assoc]

theorem no3_leadNL_le : ∀ s : List Char, no3 s = true → leadNL s ≤ 2 := by
  intro s
  induction s with
  | nil => intro _; simp [leadNL]
  | cons c cs ih =>
    intro h
    by_cases hc : c = '\n'
    · subst hc
      rw [no3_nl] at h
      obtain ⟨h1, _⟩ := Bool.and_eq_true_iff.mp h
      have h1' : leadNL cs ≤ 1 := of_decide_eq_true h1
      rw [leadNL_nl]
      omega
    · simp [leadNL, hc]

theorem nbGo_leadNL : ∀ s : List Char,
    (∀ ws : List Char, leadNL (nbGo (.lineStart ws) s) ≤ leadNL (ws.reverse ++ s)) ∧
    (∀ b : Bool, leadNL (nbGo (.afterBullet b) s) = 0) ∧
    (leadNL (nbGo .midLine s) ≤ leadNL s) := by
  intro s
  induction s with
  | nil =>
    refine ⟨?_, ?_, ?_⟩
    · intro ws
      show leadNL ws.reverse ≤ leadNL (ws.reverse ++ [])
      rw [List.append_nil]
    · intro b; rfl
    · simp [nbGo, leadNL]
  | cons c cs ih =>
    obtain ⟨ih1, ih2, ih3⟩ := ih
    refine ⟨?_, ?_, ?_⟩
    · intro ws
      by_cases hwsp : isPySpace c = true
      · rw [nbA_ws ws cs c hwsp]
        have h := ih1 (c :: ws)
        have hsh : (c :: ws).reverse ++ cs = ws.reverse ++ c :: cs := by
          simp
        rwa [hsh] at h
      · have hw' : isPySpace c = false := by simpa using hwsp
        have hnl : ¬ c = '\n' := not_nl_of_not_ws c hw'
        by_cases hb : isBullet c = true
        · rw [nbA_bullet ws cs c hb]
          simp [leadNL]
        · have hb' : isBullet c = false := by simpa using hb
          rw [nbA_other ws cs c hw' hb']
          rw [leadNL_append_cons c hnl, leadNL_append_cons c hnl]
    · intro b
      by_cases hwsp : isPySpace c = true
      · rw [nbB_ws cs b c hwsp]
        exact ih2 _
      · have hw' : isPySpace c = false := by simpa using hwsp
        have hnl : ¬ c = '\n' := not_nl_of_not_ws c hw'
        by_cases hcond : (b && isBullet c) = true
        · obtain ⟨hbt, hbu⟩ := Bool.and_eq_true_iff.mp hcond
          subst hbt
          rw [nbB_bullet cs c hbu]
          simp [leadNL]
        · have hcond' : (b && isBullet c) = false := by simpa using hcond
          rw [nbB_other cs b c hw' hcond']
          simp [leadNL, hnl]
    · by_cases hnl : c = '\n'
      · subst hnl
        rw [nbC_nl cs]
        have h := ih1 []
        simp only [List.reverse_nil, List.nil_append] at h
        have h1 : leadNL ('\n' :: nbGo (.lineStart []) cs) =
            leadNL (nbGo (.lineStart []) cs) + 1 := by simp [leadNL]
        have h2 : leadNL ('\n' :: cs) = leadNL cs + 1 := by simp [leadNL]
        omega
      · rw [nbC_other cs c hnl]
        simp [leadNL, hnl]

theorem nbGo_no3 : ∀ s : List Char,
    (∀ ws : List Char, no3 (ws.reverse ++ s) = true →
      no3 (nbGo (.lineStart ws) s) = true) ∧
    (∀ b : Bool, no3 s = true → no3 (nbGo (.afterBullet b) s) = true) ∧
    (no3 s = true → no3 (nbGo .midLine s) = true) := by
  intro s
  induction s with
  | nil =>
    refine ⟨?_, ?_, ?_⟩
    · intro ws h
      rw [List.append_nil] at h
      exact h
    · intro b _; rfl
    · intro _; rfl
  | cons c cs ih =>
    obtain ⟨ih1, ih2, ih3⟩ := ih
    refine ⟨?_, ?_, ?_⟩
    · intro ws h
      by_cases hwsp : isPySpace c = true
      · rw [nbA_ws ws cs c hwsp]
        apply ih1 (c :: ws)
        have hsh : (c :: ws).reverse ++ cs = ws.reverse ++ c :: cs := by simp
        rwa [hsh]
      · have hw' : isPySpace c = false := by simpa using hwsp
        have hnl : ¬ c = '\n' := not_nl_of_not_ws c hw'
        have hcs : no3 cs = true := no3_tail (no3_append_right ws.reverse _ h)
        by_cases hb : isBullet c = true
        · rw [nbA_bullet ws cs c hb]
          have hw2 := ih2 false hcs
          simp [no3, hw2]
        · have hb' : isBullet c = false := by simpa using hb
          rw [nbA_other ws cs c hw' hb']
          rw [no3_append_cons c hnl] at h ⊢
          obtain ⟨hws3, _⟩ := Bool.and_eq_true_iff.mp h
          simp [hws3, ih3 hcs]
    · intro b h
      by_cases hwsp : isPySpace c = true
      · rw [nbB_ws cs b c hwsp]
        exact ih2 _ (no3_tail h)
      · have hw' : isPySpace c = false := by simpa using hwsp
        have hnl : ¬ c = '\n' := not_nl_of_not_ws c hw'
        by_cases hcond : (b && isBullet c) = true
        · obtain ⟨hbt, hbu⟩ := Bool.and_eq_true_iff.mp hcond
          subst hbt
          rw [nbB_bullet cs c hbu]
          have hw2 := ih2 false (no3_tail h)
          simp [no3, hw2]
        · have hcond' : (b && isBullet c) = false := by simpa using hcond
          rw [nbB_other cs b c hw' hcond']
          simp [no3, hnl, ih3 (no3_tail h)]
    · intro h
      by_cases hnl : c = '\n'
      · subst hnl
        rw [nbC_nl cs]
        rw [no3_nl] at h
        obtain ⟨h1, h2⟩ := Bool.and_eq_true_iff.mp h
        have h1' : leadNL cs ≤ 1 := of_decide_eq_true h1
        have hlead := (nbGo_leadNL cs).1 []
        simp only [List.reverse_nil, List.nil_append] at hlead
        rw [no3_nl]
        refine Bool.and_eq_true_iff.mpr ⟨decide_eq_true (by omega), ?_⟩
        apply ih1 []
        simpa using h2
      · rw [nbC_other cs c hnl]
        simp [no3, hnl, ih3 (no3_tail h)]

theorem cnAux_no3 : ∀ (s : List Char) (n : Nat),
    no3 (cnAux n s) = true ∧ leadNL (cnAux n s) + min n 2 ≤ 2 := by
  intro s
  induction s with
  | nil =>
    intro n
    refine ⟨rfl, ?_⟩
    show leadNL [] + min n 2 ≤ 2
    have : leadNL [] = 0 := rfl
    omega
  | cons c cs ih =>
    intro n
    by_cases hc : c = '\n'
    · subst hc
      by_cases hn : n < 2
      · obtain ⟨ihn1, ihn2⟩ := ih (n + 1)
        have hout : cnAux n ('\n' :: cs) = '\n' :: cnAux (n + 1) cs := by
          simp [cnAux, hn]
        rw [hout]
        constructor
        · rw [no3_nl]
          exact Bool.and_eq_true_iff.mpr ⟨decide_eq_true (by omega), ihn1⟩
        · rw [leadNL_nl]
          omega
      · obtain ⟨ihn1, ihn2⟩ := ih (n + 1)
        have hout : cnAux n ('\n' :: cs) = cnAux (n + 1) cs := by
          simp [cnAux, hn]
        rw [hout]
        exact ⟨ihn1, by omega⟩
    · obtain ⟨ihn1, ihn2⟩ := ih 0
      have hout : cnAux n (c :: cs) = c :: cnAux 0 cs := by
        simp [cnAux, hc]
      rw [hout]
      constructor
      · simp [no3, hc, ihn1]
      · simp only [leadNL, if_neg hc]
        omega

theorem cnAux_id : ∀ (s : List Char) (n : Nat),
    no3 s = true → leadNL s + min n 2 ≤ 2 → cnAux n s = s := by
  intro s
  induction s with
  | nil => intro n _ _; rfl
  | cons c cs ih =>
    intro n h hl
    by_cases hc : c = '\n'
    · subst hc
      rw [no3_nl] at h
      obtain ⟨h1, h2⟩ := Bool.and_eq_true_iff.mp h
      have h1' : leadNL cs ≤ 1 := of_decide_eq_true h1
      rw [leadNL_nl] at hl
      have hn : n < 2 := by omega
      have hout : cnAux n ('\n' :: cs) = '\n' :: cnAux (n + 1) cs := by
        simp [cnAux, hn]
      rw [hout]
      congr 1
      exact ih (n + 1) h2 (by omega)
    · have hout : cnAux n (c :: cs) = c :: cnAux 0 cs := by
        simp [cnAux, hc]
      rw [hout]
      congr 1
      have hcs := no3_tail h
      exact ih 0 hcs (by have := no3_leadNL_le cs hcs; omega)

/-- Claim C10: the output normalization of format_response, which collapses
runs of three or more newlines to exactly two and rewrites the dash or
bullet markers found at line starts to the canonical dash-space prefix, is
idempotent: applying it twice gives the same result as applying it once.
The first pass leaves no long newline run (and the bullet pass cannot
create one, since its insertions contain no newline), and the bullet pass
leaves every line already in the normalized form it itself produces. -/
theorem c10_format_response_idem : ∀ s : List Char,
    format_response (format_response s) = format_response s := by
  intro s
  show normBullets (collapseNewlines (normBullets (collapseNewlines s))) = _
  have hy : no3 (cnAux 0 s) = true := (cnAux_no3 s 0).1
  have hz : no3 (nbGo (.lineStart []) (cnAux 0 s)) = true :=
    (nbGo_no3 (cnAux 0 s)).1 [] hy
  have hcn : collapseNewlines (normBullets (collapseNewlines s)) =
      normBullets (collapseNewlines s) := by
    show cnAux 0 (nbGo (.lineStart []) (cnAux 0 s)) = _
    apply cnAux_id _ 0 hz
    have := no3_leadNL_le _ hz
    omega
  rw [hcn]
  show nbGo (.lineStart []) (nbGo (.lineStart []) (cnAux 0 s)) = _
  exact (nbGo_idem (cnAux 0 s)).1 [] (by intro x hx; simp at hx)
